import Mathlib

set_option maxRecDepth 8000

/-!
Verification development for the dlu-api schedule parser (`src/main.go`).

Strings are embedded as lists of unicode scalar values (`List Char`), which
agrees with Go's rune-level view of its UTF-8 strings for every operation the
parser performs (all pattern literals start with ASCII characters, so
byte-level substring search coincides with rune-level search).

The two regular expressions of the source are embedded as abstract syntax
trees and executed by a priority-ordered backtracking matcher that returns
the list of all matches in the order a Perl-style (leftmost-first) engine
explores them; Go's `regexp` package implements exactly these leftmost-first
semantics for `FindStringSubmatch`.  The matcher is fuelled so that it is
structurally recursive and hence evaluates inside the kernel; the fuel
`(length + 1) * (size + 1) + 1` strictly dominates the length of any chain of
calls, each of which strictly decreases the lexicographic measure
(remaining-input length, expression size).
-/

abbrev Str : Type := List Char

/-- The set of characters trimmed by Go's `strings.TrimSpace`
(`unicode.IsSpace`). -/
def isSpaceChar (c : Char) : Bool :=
  c == ' ' || c == '\t' || c == '\n' || c == '\x0b' || c == '\x0c' || c == '\r'
  || c == '\x85' || c == '\xa0' || c == '\u1680'
  || (decide (0x2000 ≤ c.toNat) && decide (c.toNat ≤ 0x200a))
  || c == '\u2028' || c == '\u2029' || c == '\u202f' || c == '\u205f' || c == '\u3000'

/-- Go `strings.TrimSpace`: drop leading and trailing white space. -/
def trimSpace (s : Str) : Str :=
  ((s.dropWhile isSpaceChar).reverse.dropWhile isSpaceChar).reverse

/-- Go `strings.TrimPrefix`: remove `p` from the front of `s` when present. -/
def trimPrefixStr (s p : Str) : Str :=
  if p.isPrefixOf s then s.drop p.length else s

/-- Go `strings.HasSuffix`. -/
def hasSuffixStr (s p : Str) : Bool :=
  p.reverse.isPrefixOf s.reverse

/-- Go `strings.TrimSuffix`: remove `p` from the end of `s` when present. -/
def trimSuffixStr (s p : Str) : Str :=
  if hasSuffixStr s p then s.take (s.length - p.length) else s

/-- Go `strings.Contains s p`. -/
def containsSubstr : Str → Str → Bool
  | [], p => p.isPrefixOf ([] : Str)
  | c :: rest, p => p.isPrefixOf (c :: rest) || containsSubstr rest p

/-- Fuelled worker for `replaceAll`: scan left to right, replacing each
non-overlapping occurrence of `p` by `r`.  One unit of fuel is spent per
step and every step consumes at least one input character, so fuel equal to
the input length is always sufficient. -/
def replaceAllF (p r : Str) : Nat → Str → Str
  | _, [] => []
  | 0, s => s
  | fuel + 1, c :: rest =>
    if p.isPrefixOf (c :: rest) && !p.isEmpty then
      r ++ replaceAllF p r fuel (rest.drop (p.length - 1))
    else
      c :: replaceAllF p r fuel rest

/-- Go `strings.ReplaceAll s p r` (for the non-empty patterns the source
uses). -/
def replaceAll (s p r : Str) : Str :=
  replaceAllF p r s.length s

/-- Go `strings.Split s (String.singleton sep)`: split at every occurrence of
the separator character; always returns at least one (possibly empty)
fragment. -/
def splitOnChar (sep : Char) : Str → List Str
  | [] => [[]]
  | c :: rest =>
    match splitOnChar sep rest with
    | [] => if c = sep then [[], []] else [[c]]
    | h :: t => if c = sep then [] :: h :: t else (c :: h) :: t

/-- Join lines with a newline between consecutive elements (used only to
state theorems about multi-line documents). -/
def joinNl : List Str → Str
  | [] => []
  | [l] => l
  | l :: l' :: ls => l ++ '\n' :: joinNl (l' :: ls)

/-- Regular-expression abstract syntax, covering exactly the constructs used
by the two patterns in `src/main.go`: character classes, sequencing,
prioritized alternation (which also encodes `(?:...)?`), greedy and lazy
star (which also encode `+` and `*?`), and numbered capture groups. -/
inductive RE where
  | eps : RE
  | cls : (Char → Bool) → RE
  | seq : RE → RE → RE
  | alt : RE → RE → RE
  | starG : RE → RE
  | starL : RE → RE
  | group : Nat → RE → RE

/-- Structural size of a regular expression, used to compute sufficient
fuel for the matcher. -/
def reSize : RE → Nat
  | .eps => 1
  | .cls _ => 1
  | .seq a b => reSize a + reSize b + 1
  | .alt a b => reSize a + reSize b + 1
  | .starG r => reSize r + 1
  | .starL r => reSize r + 1
  | .group _ r => reSize r + 1

/-- Captured submatches: group index paired with the captured text, most
recent first. -/
abbrev Caps : Type := List (Nat × Str)

/-- Priority-ordered list of all matches of `re` against `s`: each element is
the remaining input paired with the captures, and the head is the match a
leftmost-first (Perl/Go) engine reports.  Greedy star tries longer
iteration counts first, lazy star shorter ones, alternation tries the left
branch first, and star iterations must consume input (as in RE2). -/
def matchListF (fuel : Nat) : RE → Str → Caps → List (Str × Caps) :=
  Nat.rec (motive := fun _ => RE → Str → Caps → List (Str × Caps))
    (fun _ _ _ => [])
    (fun _ ih re s c =>
      match re with
      | .eps => [(s, c)]
      | .cls p =>
        match s with
        | [] => []
        | ch :: rest => if p ch then [(rest, c)] else []
      | .seq r1 r2 =>
        (ih r1 s c).flatMap (fun sc => ih r2 sc.1 sc.2)
      | .alt r1 r2 => ih r1 s c ++ ih r2 s c
      | .starG r =>
        ((ih r s c).flatMap (fun sc =>
          if sc.1.length < s.length then ih (.starG r) sc.1 sc.2 else [])) ++ [(s, c)]
      | .starL r =>
        (s, c) :: ((ih r s c).flatMap (fun sc =>
          if sc.1.length < s.length then ih (.starL r) sc.1 sc.2 else []))
      | .group i r =>
        (ih r s c).map (fun sc => (sc.1, (i, s.take (s.length - sc.1.length)) :: sc.2)))
    fuel

/-- Fuel that strictly dominates the depth of any call chain of the matcher
on input `s`. -/
def reFuel (re : RE) (s : Str) : Nat :=
  (s.length + 1) * (reSize re + 1) + 1

/-- Match `re` at the start of `s` (the source's subject pattern is anchored
with `^`); returns the captures of the highest-priority match. -/
def reMatchAnchored (re : RE) (s : Str) : Option Caps :=
  ((matchListF (reFuel re s) re s []).head?).map (fun sc => sc.2)

/-- Leftmost-first search, as performed by Go's `FindStringSubmatch` for an
unanchored pattern: try each start position from the left, and at the first
position with a match return its highest-priority captures. -/
def reSearchFrom (re : RE) : Str → Option Caps
  | [] => ((matchListF (reFuel re []) re [] []).head?).map (fun sc => sc.2)
  | c :: rest =>
    match (matchListF (reFuel re (c :: rest)) re (c :: rest) []).head? with
    | some sc => some sc.2
    | none => reSearchFrom re rest

/-- Captured text of group `i`; the empty string when the group did not
participate in the match, exactly as Go reports it. -/
def capGet (caps : Caps) (i : Nat) : Str :=
  ((caps.find? (fun p => p.1 == i)).map (fun p => p.2)).getD []

/-- Single-character literal. -/
def reLit (c : Char) : RE := .cls (fun d => d == c)

/-- Sequence a list of expressions. -/
def reCat (rs : List RE) : RE := rs.foldr .seq .eps

/-- Literal string. -/
def reStr (s : Str) : RE := reCat (s.map reLit)

/-- `r+` (greedy). -/
def rePlus (r : RE) : RE := .seq r (.starG r)

/-- `(?:r)?` (greedy option: presence preferred). -/
def reOpt (r : RE) : RE := .alt r .eps

/-- `.`: any character except newline. -/
def reDot : RE := .cls (fun c => c != '\n')

/-- `\d` (Go: ASCII digits only). -/
def reDigit : RE := .cls (fun c => c.isDigit)

/-- `\s` (Go: `[\t\n\f\r ]`). -/
def reSpace : RE := .cls (fun c => c == ' ' || c == '\t' || c == '\n' || c == '\x0c' || c == '\r')

/-- `[A-Z0-9]`. -/
def reUpperDigit : RE := .cls (fun c => c.isUpper || c.isDigit)

/-- `[0-9\-]`. -/
def reDigitDash : RE := .cls (fun c => c.isDigit || c == '-')

/-- `[A-Za-z0-9\.]`. -/
def reAlnumDot : RE := .cls (fun c => c.isAlpha || c.isDigit || c == '.')

/-- `[^\-]` (negated classes do match newline in Go). -/
def reNonDash : RE := .cls (fun c => c != '-')

/-- The header pattern of `parseHeader`:
`Tuần\s+(\d+).*lớp:\s*([A-Z0-9]+)`. -/
def headerRE : RE :=
  reCat [reStr "Tuần".data, rePlus reSpace, .group 1 (rePlus reDigit),
         .starG reDot, reStr "lớp:".data, .starG reSpace,
         .group 2 (rePlus reUpperDigit)]

/-- The subject pattern of `parseSubjects`:
`^(.*?)(?:\((\d{2}[A-Z0-9]+)\))?- Nhóm: (\d+)- Lớp: ([A-Z0-9]+)(?: - nhom \d+)?- Tiết: ([0-9\-]+)- Phòng: ([A-Za-z0-9\.]+)- GV: ([^\-]+)- Đã học: (\d+/\d+)`
(the leading `^` is reflected by matching anchored at the start). -/
def subjectRE : RE :=
  reCat [.group 1 (.starL reDot),
         reOpt (reCat [reLit '(',
                       .group 2 (reCat [reDigit, reDigit, rePlus reUpperDigit]),
                       reLit ')']),
         reStr "- Nhóm: ".data,
         .group 3 (rePlus reDigit),
         reStr "- Lớp: ".data,
         .group 4 (rePlus reUpperDigit),
         reOpt (reCat [reStr " - nhom ".data, rePlus reDigit]),
         reStr "- Tiết: ".data,
         .group 5 (rePlus reDigitDash),
         reStr "- Phòng: ".data,
         .group 6 (rePlus reAlnumDot),
         reStr "- GV: ".data,
         .group 7 (rePlus reNonDash),
         reStr "- Đã học: ".data,
         .group 8 (reCat [rePlus reDigit, reLit '/', rePlus reDigit])]

/-- `Subject` of `src/main.go`. -/
structure Subject where
  Name : Str
  Group : Str
  Class : Str
  Period : Str
  Room : Str
  Teacher : Str
  Lessons : Str
  deriving DecidableEq

/-- `DaySchedule` of `src/main.go`. -/
structure DaySchedule where
  Sang : List Subject
  Chieu : List Subject
  Toi : List Subject
  deriving DecidableEq

/-- `Schedule` of `src/main.go`; the Go `map[string]DaySchedule` is embedded
extensionally as a partial function from day labels to day schedules (an
absent key maps to `none`). -/
structure Schedule where
  Class : Str
  Week : Str
  Days : Str → Option DaySchedule

/-- Map update with Go's overwrite semantics. -/
def mapInsert (k : Str) (v : DaySchedule) (m : Str → Option DaySchedule) :
    Str → Option DaySchedule :=
  fun k' => if k' = k then some v else m k'

/-- The empty day map. -/
def emptyDays : Str → Option DaySchedule := fun _ => none

/-- The no-class marker. -/
def nghiStr : Str := "Nghỉ".data

/-- The subject-entry delimiter ` tiết `. -/
def delimStr : Str := " tiết ".data

/-- The replacement ` tiết\n` inserted by `splitSubjects`. -/
def delimNlStr : Str := " tiết\n".data

/-- The delimiter without its trailing space (what remains at the end of a
fragment after the split). -/
def delimCoreStr : Str := " tiết".data

/-- Day-header marker `Thứ`. -/
def thuStr : Str := "Thứ".data

/-- Day-header marker `Chủ nhật`. -/
def chuNhatStr : Str := "Chủ nhật".data

/-- Morning slot label. -/
def sangLabel : Str := "Sáng:".data

/-- Afternoon slot label. -/
def chieuLabel : Str := "Chiều:".data

/-- Evening slot label. -/
def toiLabel : Str := "Tối:".data

/-- `parseHeader` of `src/main.go`: run the header pattern over the whole
input; on a match return (week, className), otherwise two empty strings. -/
def parseHeader (input : Str) : Str × Str :=
  match reSearchFrom headerRE input with
  | some caps => (capGet caps 1, capGet caps 2)
  | none => ([], [])

/-- `splitSubjects` of `src/main.go`: insert a line break after every
occurrence of ` tiết `, split on line breaks, trim each fragment and drop
empty ones. -/
def splitSubjects (input : Str) : List Str :=
  let replaced := replaceAll input delimStr delimNlStr
  let lines := splitOnChar '\n' replaced
  lines.foldl (fun acc l =>
    let l' := trimSpace l
    if l'.isEmpty then acc else acc ++ [l']) []

/-- One iteration of the subject-matching loop of `parseSubjects`: match a
fragment against the subject pattern and build a `Subject` from capture
groups 1, 3, 4, 5, 6, 7, 8 (trimming name and teacher), or fail. -/
def parseSubjectLine (line : Str) : Option Subject :=
  match reMatchAnchored subjectRE line with
  | some caps =>
    some { Name := trimSpace (capGet caps 1)
           Group := capGet caps 3
           Class := capGet caps 4
           Period := capGet caps 5
           Room := capGet caps 6
           Teacher := trimSpace (capGet caps 7)
           Lessons := capGet caps 8 }
  | none => none

/-- `parseSubjects` of `src/main.go`: an input containing `Nghỉ` yields the
empty list; otherwise split into fragments and collect, in order, the
fragments that match the subject pattern. -/
def parseSubjects (input : Str) : List Subject :=
  if containsSubstr input nghiStr then []
  else
    (splitSubjects input).foldl (fun acc line =>
      match parseSubjectLine line with
      | some subj => acc ++ [subj]
      | none => acc) []

/-- One iteration of the loop of `parseDay`: trim the line, and on a slot
label overwrite that slot with the parse of the rest of the line. -/
def dayStep (day : DaySchedule) (line : Str) : DaySchedule :=
  let line := trimSpace line
  if sangLabel.isPrefixOf line then
    { day with Sang := parseSubjects (trimPrefixStr line sangLabel) }
  else if chieuLabel.isPrefixOf line then
    { day with Chieu := parseSubjects (trimPrefixStr line chieuLabel) }
  else if toiLabel.isPrefixOf line then
    { day with Toi := parseSubjects (trimPrefixStr line toiLabel) }
  else day

/-- `parseDay` of `src/main.go`. -/
def parseDay (dayLines : List Str) : DaySchedule :=
  dayLines.foldl dayStep { Sang := [], Chieu := [], Toi := [] }

/-- Is the (already trimmed) line a day-header line? -/
def isDayHeader (l : Str) : Bool :=
  thuStr.isPrefixOf l || chuNhatStr.isPrefixOf l

/-- The loop state of `parseSchedule`: the day map built so far, the label of
the currently open day (empty string when none), and its buffered lines. -/
structure ParseState where
  days : Str → Option DaySchedule
  currentDay : Str
  dayLines : List Str

/-- One iteration of the line loop of `parseSchedule`. -/
def scheduleStep (st : ParseState) (rawLine : Str) : ParseState :=
  let line := trimSpace rawLine
  if line = [] then st
  else if isDayHeader line then
    { days := if st.currentDay ≠ [] then
                mapInsert st.currentDay (parseDay st.dayLines) st.days
              else st.days
      currentDay := trimSuffixStr line [':']
      dayLines := [] }
  else { st with dayLines := st.dayLines ++ [line] }

/-- The flush after the loop of `parseSchedule`: record the still-open day,
if any. -/
def finalizeDays (st : ParseState) : Str → Option DaySchedule :=
  if st.currentDay ≠ [] then mapInsert st.currentDay (parseDay st.dayLines) st.days
  else st.days

/-- `parseSchedule` of `src/main.go`. -/
def parseSchedule (input : Str) : Schedule :=
  let hdr := parseHeader input
  let st := (splitOnChar '\n' input).foldl scheduleStep
    { days := emptyDays, currentDay := [], dayLines := [] }
  { Class := hdr.2, Week := hdr.1, Days := finalizeDays st }

/-- Trimmed non-empty lines, in order: what the buffering loops of
`parseSchedule` and `splitSubjects` keep. -/
def processedLines (ls : List Str) : List Str :=
  (ls.map trimSpace).filter (fun l => !l.isEmpty)

/-- No occurrence of `p` starts strictly before the final position in
`a ++ p`: the left-to-right scan of `replaceAll` over a text extending
`a ++ p` necessarily consumes `a` literally and then replaces this `p`. -/
abbrev noEarlyOcc (a p : Str) : Prop :=
  ∀ i, i < a.length → p.isPrefixOf ((a ++ p).drop i) = false

/-- Occurrence count of `p` in `s` (number of start positions at which `p`
occurs), used to state the refuted reading of the splitter claim. -/
def countOcc : Str → Str → Nat
  | [], _ => 0
  | c :: rest, p => (if p.isPrefixOf (c :: rest) then 1 else 0) + countOcc rest p

theorem isPrefixOf_append_self (p s : Str) : p.isPrefixOf (p ++ s) = true := by
  induction p with
  | nil => cases s <;> rfl
  | cons c p ih => simp [List.isPrefixOf, ih]

theorem length_le_of_isPrefixOf {p s : Str} (h : p.isPrefixOf s = true) :
    p.length ≤ s.length := by
  induction p generalizing s with
  | nil => simp
  | cons c p ih =>
    cases s with
    | nil => simp [List.isPrefixOf] at h
    | cons d t =>
      simp only [List.isPrefixOf, Bool.and_eq_true] at h
      simpa [Nat.succ_le_succ_iff] using ih h.2

theorem isPrefixOf_append_right {p x : Str} (y : Str) (h : p.length ≤ x.length) :
    p.isPrefixOf (x ++ y) = p.isPrefixOf x := by
  induction p generalizing x with
  | nil => simp [List.isPrefixOf]
  | cons c p ih =>
    cases x with
    | nil => simp at h
    | cons d t =>
      simp only [List.cons_append, List.isPrefixOf, List.append_eq]
      rw [ih (Nat.le_of_succ_le_succ h)]

theorem replaceAllF_nil (p r : Str) (fuel : Nat) : replaceAllF p r fuel [] = [] := by
  cases fuel <;> rfl

theorem replaceAllF_zero (p r s : Str) : replaceAllF p r 0 s = s := by
  cases s <;> rfl

theorem replaceAllF_succ (p r : Str) (fuel : Nat) (c : Char) (rest : Str) :
    replaceAllF p r (fuel + 1) (c :: rest) =
      if p.isPrefixOf (c :: rest) && !p.isEmpty then
        r ++ replaceAllF p r fuel (rest.drop (p.length - 1))
      else c :: replaceAllF p r fuel rest := rfl

theorem replaceAllF_of_not_contains (p r : Str) :
    ∀ (fuel : Nat) (s : Str), containsSubstr s p = false → replaceAllF p r fuel s = s := by
  intro fuel
  induction fuel with
  | zero => intro s _; exact replaceAllF_zero p r s
  | succ fuel ih =>
    intro s h
    cases s with
    | nil => exact replaceAllF_nil p r _
    | cons c rest =>
      have h' : p.isPrefixOf (c :: rest) = false ∧ containsSubstr rest p = false := by
        simpa [containsSubstr] using h
      rw [replaceAllF_succ, h'.1]
      simpa using congrArg (c :: ·) (ih rest h'.2)

theorem replaceAll_of_not_contains (s p r : Str) (h : containsSubstr s p = false) :
    replaceAll s p r = s := replaceAllF_of_not_contains p r s.length s h

theorem replaceAllF_fuel (p r : Str) :
    ∀ (fuel : Nat) (s : Str) (fuel' : Nat), s.length ≤ fuel → s.length ≤ fuel' →
      replaceAllF p r fuel s = replaceAllF p r fuel' s := by
  intro fuel
  induction fuel with
  | zero =>
    intro s fuel' h _
    have : s = [] := List.length_eq_zero.mp (Nat.le_zero.mp h)
    subst this
    rw [replaceAllF_nil, replaceAllF_nil]
  | succ fuel ih =>
    intro s fuel' h h'
    cases s with
    | nil => rw [replaceAllF_nil, replaceAllF_nil]
    | cons c rest =>
      cases fuel' with
      | zero => simp at h'
      | succ f' =>
        rw [replaceAllF_succ, replaceAllF_succ]
        by_cases hp : (p.isPrefixOf (c :: rest) && !p.isEmpty) = true
        · rw [hp]
          simp only [if_true]
          have hlen : (rest.drop (p.length - 1)).length ≤ rest.length := by
            simp [List.length_drop]
          have h1 : (rest.drop (p.length - 1)).length ≤ fuel :=
            le_trans hlen (Nat.le_of_succ_le_succ h)
          have h2 : (rest.drop (p.length - 1)).length ≤ f' :=
            le_trans hlen (Nat.le_of_succ_le_succ h')
          rw [ih _ f' h1 h2]
        · rw [Bool.not_eq_true] at hp
          rw [hp]
          simp only [if_false, Bool.false_eq_true]
          rw [ih rest f' (Nat.le_of_succ_le_succ h) (Nat.le_of_succ_le_succ h')]

theorem replaceAllF_append (p r : Str) (hp : p ≠ []) :
    ∀ (a s : Str) (fuel : Nat),
      (a ++ p ++ s).length ≤ fuel →
      (∀ i, i < a.length → p.isPrefixOf ((a ++ p).drop i) = false) →
      replaceAllF p r fuel (a ++ p ++ s) = a ++ r ++ replaceAll s p r := by
  intro a
  induction a with
  | nil =>
    intro s fuel hf _
    cases p with
    | nil => exact absurd rfl hp
    | cons d p' =>
      cases fuel with
      | zero => simp at hf
      | succ f =>
        have hrw : ([] : Str) ++ (d :: p') ++ s = d :: (p' ++ s) := by simp
        rw [hrw, replaceAllF_succ]
        have hpre : (d :: p').isPrefixOf (d :: (p' ++ s)) = true :=
          isPrefixOf_append_self (d :: p') s
        rw [hpre]
        simp only [Bool.true_and, List.isEmpty_cons, Bool.not_false, if_true]
        have hdrop : (p' ++ s).drop ((d :: p').length - 1) = s :=
          List.drop_left p' s
        rw [hdrop]
        have hfs : s.length ≤ f := by
          simp only [List.nil_append, List.length_append, List.length_cons] at hf
          omega
        rw [replaceAllF_fuel (d :: p') r f s s.length hfs (le_refl _)]
        simp [replaceAll]
  | cons c a' ih =>
    intro s fuel hf hocc
    cases fuel with
    | zero => simp at hf
    | succ f =>
      have hrw : (c :: a') ++ p ++ s = c :: (a' ++ p ++ s) := by simp
      rw [hrw, replaceAllF_succ]
      have h0 : p.isPrefixOf ((c :: a') ++ p) = false := by
        simpa using hocc 0 (by simp)
      have h0' : p.isPrefixOf (c :: (a' ++ p ++ s)) = false := by
        have hlen : p.length ≤ ((c :: a') ++ p).length := by
          simp only [List.length_append, List.length_cons]
          omega
        have : p.isPrefixOf (((c :: a') ++ p) ++ s) = p.isPrefixOf ((c :: a') ++ p) :=
          isPrefixOf_append_right s hlen
        simpa [List.append_assoc] using this.trans h0
      have hcond : (List.isPrefixOf p (c :: (a' ++ p ++ s)) && !p.isEmpty) = false := by
        rw [h0', Bool.false_and]
      rw [if_neg (fun hc => Bool.false_ne_true (hcond ▸ hc))]
      have hf' : (a' ++ p ++ s).length ≤ f := by
        rw [hrw] at hf
        simp only [List.length_cons] at hf
        omega
      have hocc' : ∀ i, i < a'.length → p.isPrefixOf ((a' ++ p).drop i) = false := by
        intro i hi
        have := hocc (i + 1) (by simpa using Nat.succ_lt_succ hi)
        simpa using this
      rw [ih s f hf' hocc']
      simp

theorem replaceAll_split (p r a s : Str) (hp : p ≠ []) (ha : noEarlyOcc a p) :
    replaceAll (a ++ p ++ s) p r = a ++ r ++ replaceAll s p r :=
  replaceAllF_append p r hp a s _ (le_refl _) ha

theorem splitOnChar_ne_nil (sep : Char) (s : Str) : splitOnChar sep s ≠ [] := by
  cases s with
  | nil => simp [splitOnChar]
  | cons c rest =>
    cases hx : splitOnChar sep rest with
    | nil => by_cases hc : c = sep <;> simp [splitOnChar, hx, hc]
    | cons h t => by_cases hc : c = sep <;> simp [splitOnChar, hx, hc]

theorem splitOnChar_append (sep : Char) (a b : Str) :
    splitOnChar sep (a ++ sep :: b) = splitOnChar sep a ++ splitOnChar sep b := by
  induction a with
  | nil =>
    obtain ⟨h, t, hht⟩ : ∃ h t, splitOnChar sep b = h :: t := by
      cases hx : splitOnChar sep b with
      | nil => exact absurd hx (splitOnChar_ne_nil sep b)
      | cons h t => exact ⟨h, t, rfl⟩
    have hstep : splitOnChar sep (([] : Str) ++ sep :: b)
        = match splitOnChar sep b with
          | [] => if sep = sep then [[], []] else [[sep]]
          | h :: t => if sep = sep then [] :: h :: t else (sep :: h) :: t := rfl
    rw [hstep, hht]
    simp [splitOnChar]
  | cons c a' ih =>
    obtain ⟨h, t, hht⟩ : ∃ h t, splitOnChar sep a' = h :: t := by
      cases hx : splitOnChar sep a' with
      | nil => exact absurd hx (splitOnChar_ne_nil sep a')
      | cons h t => exact ⟨h, t, rfl⟩
    have hstep : splitOnChar sep ((c :: a') ++ sep :: b)
        = match splitOnChar sep (a' ++ sep :: b) with
          | [] => if c = sep then [[], []] else [[c]]
          | h :: t => if c = sep then [] :: h :: t else (c :: h) :: t := rfl
    rw [hstep, ih, hht]
    simp only [List.cons_append]
    by_cases hc : c = sep
    · simp [hc, splitOnChar, hht]
    · simp [hc, splitOnChar, hht]

theorem splitOnChar_not_mem (sep : Char) (s : Str) (h : sep ∉ s) :
    splitOnChar sep s = [s] := by
  induction s with
  | nil => rfl
  | cons c rest ih =>
    have hc : ¬ c = sep := fun hx => h (by simp [hx])
    have hrest : sep ∉ rest := fun hx => h (by simp [hx])
    simp only [splitOnChar, ih hrest]
    simp [hc]

theorem splitOnChar_joinNl (l : Str) (ls : List Str)
    (h : ∀ x ∈ l :: ls, '\n' ∉ x) :
    splitOnChar '\n' (joinNl (l :: ls)) = l :: ls := by
  induction ls generalizing l with
  | nil => exact splitOnChar_not_mem '\n' l (h l (by simp))
  | cons l' ls ih =>
    have hjoin : joinNl (l :: l' :: ls) = l ++ '\n' :: joinNl (l' :: ls) := rfl
    rw [hjoin, splitOnChar_append]
    rw [splitOnChar_not_mem '\n' l (h l (by simp))]
    rw [ih l' (fun x hx => h x (by simp at hx ⊢; tauto))]
    rfl

theorem processedLines_nil : processedLines [] = [] := rfl

theorem processedLines_cons (l : Str) (ls : List Str) :
    processedLines (l :: ls) =
      if (trimSpace l).isEmpty then processedLines ls
      else trimSpace l :: processedLines ls := by
  simp only [processedLines, List.map_cons, List.filter_cons]
  cases hx : (trimSpace l).isEmpty <;> simp [hx]

theorem foldl_trim_collect :
    ∀ (ls : List Str) (acc : List Str),
      ls.foldl (fun acc l =>
        let l' := trimSpace l
        if l'.isEmpty then acc else acc ++ [l']) acc
      = acc ++ processedLines ls := by
  intro ls
  induction ls with
  | nil => intro acc; simp [processedLines_nil]
  | cons l ls ih =>
    intro acc
    simp only [List.foldl_cons]
    rw [processedLines_cons]
    cases hx : (trimSpace l).isEmpty with
    | true => simp only [hx, if_true]; exact ih acc
    | false =>
      simp only [hx, if_false, Bool.false_eq_true]
      rw [ih (acc ++ [trimSpace l])]
      simp

theorem splitSubjects_eq (input : Str) :
    splitSubjects input =
      processedLines (splitOnChar '\n' (replaceAll input delimStr delimNlStr)) := by
  unfold splitSubjects
  rw [foldl_trim_collect]
  simp

theorem foldl_collect_filterMap (f : Str → Option Subject) :
    ∀ (ls : List Str) (acc : List Subject),
      ls.foldl (fun acc line =>
        match f line with
        | some s => acc ++ [s]
        | none => acc) acc
      = acc ++ ls.filterMap f := by
  intro ls
  induction ls with
  | nil => intro acc; simp
  | cons l ls ih =>
    intro acc
    simp only [List.foldl_cons, List.filterMap_cons]
    cases hx : f l with
    | none => simp only [hx]; exact ih acc
    | some s =>
      simp only [hx]
      rw [ih (acc ++ [s])]
      simp

theorem dropWhile_append_singleton (c : Char) (hc : isSpaceChar c = false) :
    ∀ (x : Str), ∃ y, (x ++ [c]).dropWhile isSpaceChar = y ++ [c] := by
  intro x
  induction x with
  | nil => exact ⟨[], by simp [List.dropWhile, hc]⟩
  | cons d x' ih =>
    by_cases hd : isSpaceChar d = true
    · obtain ⟨y, hy⟩ := ih
      exact ⟨y, by simp [List.dropWhile, hd, hy]⟩
    · rw [Bool.not_eq_true] at hd
      exact ⟨d :: x', by simp [List.dropWhile, hd]⟩

theorem trimSpace_append_ne_nil (x : Str) (c : Char) (hc : isSpaceChar c = false) :
    trimSpace (x ++ [c]) ≠ [] := by
  obtain ⟨y, hy⟩ := dropWhile_append_singleton c hc x
  unfold trimSpace
  rw [hy]
  simp only [List.reverse_append, List.reverse_cons, List.reverse_nil, List.nil_append,
    List.singleton_append, List.dropWhile, hc]
  simp

theorem trimSpace_nil : trimSpace [] = [] := rfl

theorem scheduleStep_of_empty (st : ParseState) (l : Str) (h : trimSpace l = []) :
    scheduleStep st l = st := by
  simp [scheduleStep, h]

theorem scheduleStep_of_header (st : ParseState) (l : Str)
    (hne : trimSpace l ≠ []) (hh : isDayHeader (trimSpace l) = true) :
    scheduleStep st l =
      { days := if st.currentDay ≠ [] then
                  mapInsert st.currentDay (parseDay st.dayLines) st.days
                else st.days
        currentDay := trimSuffixStr (trimSpace l) [':']
        dayLines := [] } := by
  simp [scheduleStep, hne, hh]

theorem scheduleStep_of_other (st : ParseState) (l : Str)
    (hne : trimSpace l ≠ []) (hh : isDayHeader (trimSpace l) = false) :
    scheduleStep st l = { st with dayLines := st.dayLines ++ [trimSpace l] } := by
  simp [scheduleStep, hne, hh]

theorem header_trim_ne_nil {l : Str} (h : isDayHeader (trimSpace l) = true) :
    trimSpace l ≠ [] := by
  intro hx
  rw [hx] at h
  exact absurd h (by decide)

theorem isDayHeader_ne_nil {l : Str} (h : isDayHeader l = true) : l ≠ [] := by
  intro hx
  rw [hx] at h
  exact absurd h (by decide)

theorem dayLabel_ne_nil {l : Str} (h : isDayHeader l = true) :
    trimSuffixStr l [':'] ≠ [] := by
  have hlen : 3 ≤ l.length := by
    unfold isDayHeader at h
    cases hthu : List.isPrefixOf thuStr l with
    | true =>
      have h2 := length_le_of_isPrefixOf hthu
      have h3 : thuStr.length = 3 := by decide
      omega
    | false =>
      rw [hthu, Bool.false_or] at h
      have h2 := length_le_of_isPrefixOf h
      have h3 : chuNhatStr.length = 8 := by decide
      omega
  unfold trimSuffixStr
  split
  · intro hx
    have hlen2 := congrArg List.length hx
    simp only [List.length_take, List.length_nil] at hlen2
    simp at hlen2
    omega
  · intro hx
    rw [hx] at hlen
    simp at hlen

theorem foldl_scheduleStep_nonheader :
    ∀ (ls : List Str) (st : ParseState),
      (∀ l ∈ ls, isDayHeader (trimSpace l) = false) →
      List.foldl scheduleStep st ls =
        { st with dayLines := st.dayLines ++ processedLines ls } := by
  intro ls
  induction ls with
  | nil => intro st _; simp [processedLines_nil]
  | cons l ls ih =>
    intro st h
    simp only [List.foldl_cons]
    by_cases hemp : trimSpace l = []
    · rw [scheduleStep_of_empty st l hemp, ih st (fun x hx => h x (by simp [hx]))]
      rw [processedLines_cons]
      have hx : (trimSpace l).isEmpty = true := by rw [hemp]; rfl
      simp [hx]
    · rw [scheduleStep_of_other st l hemp (h l (by simp))]
      rw [ih _ (fun x hx => h x (by simp [hx]))]
      rw [processedLines_cons]
      have hx : (trimSpace l).isEmpty = false := by
        cases hy : trimSpace l with
        | nil => exact absurd hy hemp
        | cons a b => rfl
      simp [hx]

theorem dayStep_sang_of_not (d : DaySchedule) (l : Str)
    (h : sangLabel.isPrefixOf (trimSpace l) = false) :
    (dayStep d l).Sang = d.Sang := by
  simp only [dayStep]
  rw [if_neg (by simp [h])]
  split
  · rfl
  · split <;> rfl

theorem foldl_dayStep_sang (ls : List Str) :
    ∀ (d : DaySchedule),
      (∀ l ∈ ls, sangLabel.isPrefixOf (trimSpace l) = false) →
      (List.foldl dayStep d ls).Sang = d.Sang := by
  induction ls with
  | nil => intro d _; rfl
  | cons l ls ih =>
    intro d h
    simp only [List.foldl_cons]
    rw [ih _ (fun x hx => h x (by simp [hx]))]
    exact dayStep_sang_of_not d l (h l (by simp))

theorem dayStep_chieu_of_not (d : DaySchedule) (l : Str)
    (h : chieuLabel.isPrefixOf (trimSpace l) = false) :
    (dayStep d l).Chieu = d.Chieu := by
  simp only [dayStep]
  split
  · rfl
  · rw [if_neg (by simp [h])]
    split <;> rfl

theorem dayStep_toi_of_not (d : DaySchedule) (l : Str)
    (h : toiLabel.isPrefixOf (trimSpace l) = false) :
    (dayStep d l).Toi = d.Toi := by
  simp only [dayStep]
  split
  · rfl
  · split
    · rfl
    · rw [if_neg (by simp [h])]

theorem foldl_dayStep_chieu (ls : List Str) :
    ∀ (d : DaySchedule),
      (∀ l ∈ ls, chieuLabel.isPrefixOf (trimSpace l) = false) →
      (List.foldl dayStep d ls).Chieu = d.Chieu := by
  induction ls with
  | nil => intro d _; rfl
  | cons l ls ih =>
    intro d h
    simp only [List.foldl_cons]
    rw [ih _ (fun x hx => h x (by simp [hx]))]
    exact dayStep_chieu_of_not d l (h l (by simp))

theorem foldl_dayStep_toi (ls : List Str) :
    ∀ (d : DaySchedule),
      (∀ l ∈ ls, toiLabel.isPrefixOf (trimSpace l) = false) →
      (List.foldl dayStep d ls).Toi = d.Toi := by
  induction ls with
  | nil => intro d _; rfl
  | cons l ls ih =>
    intro d h
    simp only [List.foldl_cons]
    rw [ih _ (fun x hx => h x (by simp [hx]))]
    exact dayStep_toi_of_not d l (h l (by simp))

theorem chieu_not_sang {x : Str} (h : chieuLabel.isPrefixOf x = true) :
    sangLabel.isPrefixOf x = false := by
  cases x with
  | nil => exact absurd h (by decide)
  | cons e xs =>
    have hx : chieuLabel.isPrefixOf (e :: xs)
        = (('C' == e) && "hiều:".data.isPrefixOf xs) := rfl
    rw [hx] at h
    have he : e = 'C' := (beq_iff_eq.mp ((Bool.and_eq_true _ _).mp h).1).symm
    subst he
    have hx2 : sangLabel.isPrefixOf ('C' :: xs)
        = (('S' == 'C') && "áng:".data.isPrefixOf xs) := rfl
    rw [hx2]
    rfl

theorem toi_not_sang {x : Str} (h : toiLabel.isPrefixOf x = true) :
    sangLabel.isPrefixOf x = false := by
  cases x with
  | nil => exact absurd h (by decide)
  | cons e xs =>
    have hx : toiLabel.isPrefixOf (e :: xs)
        = (('T' == e) && "ối:".data.isPrefixOf xs) := rfl
    rw [hx] at h
    have he : e = 'T' := (beq_iff_eq.mp ((Bool.and_eq_true _ _).mp h).1).symm
    subst he
    have hx2 : sangLabel.isPrefixOf ('T' :: xs)
        = (('S' == 'T') && "áng:".data.isPrefixOf xs) := rfl
    rw [hx2]
    rfl

theorem toi_not_chieu {x : Str} (h : toiLabel.isPrefixOf x = true) :
    chieuLabel.isPrefixOf x = false := by
  cases x with
  | nil => exact absurd h (by decide)
  | cons e xs =>
    have hx : toiLabel.isPrefixOf (e :: xs)
        = (('T' == e) && "ối:".data.isPrefixOf xs) := rfl
    rw [hx] at h
    have he : e = 'T' := (beq_iff_eq.mp ((Bool.and_eq_true _ _).mp h).1).symm
    subst he
    have hx2 : chieuLabel.isPrefixOf ('T' :: xs)
        = (('C' == 'T') && "hiều:".data.isPrefixOf xs) := rfl
    rw [hx2]
    rfl

theorem foldl_buf (ls : List Str) (m : Str → Option DaySchedule) :
    ∀ (buf buf' : List Str),
      (List.foldl scheduleStep ⟨m, [], buf⟩ ls = List.foldl scheduleStep ⟨m, [], buf'⟩ ls) ∨
      ((List.foldl scheduleStep ⟨m, [], buf⟩ ls).days = m ∧
       (List.foldl scheduleStep ⟨m, [], buf⟩ ls).currentDay = [] ∧
       (List.foldl scheduleStep ⟨m, [], buf'⟩ ls).days = m ∧
       (List.foldl scheduleStep ⟨m, [], buf'⟩ ls).currentDay = []) := by
  induction ls with
  | nil => intro buf buf'; right; exact ⟨rfl, rfl, rfl, rfl⟩
  | cons l ls ih =>
    intro buf buf'
    simp only [List.foldl_cons]
    by_cases hemp : trimSpace l = []
    · rw [scheduleStep_of_empty _ l hemp, scheduleStep_of_empty _ l hemp]
      exact ih buf buf'
    · by_cases hhd : isDayHeader (trimSpace l) = true
      · left
        rw [scheduleStep_of_header _ l hemp hhd, scheduleStep_of_header _ l hemp hhd]
        congr 1
      · rw [Bool.not_eq_true] at hhd
        rw [scheduleStep_of_other _ l hemp hhd, scheduleStep_of_other _ l hemp hhd]
        exact ih _ _

theorem finalize_buf (ls : List Str) (m : Str → Option DaySchedule) (buf buf' : List Str) :
    finalizeDays (List.foldl scheduleStep ⟨m, [], buf⟩ ls)
      = finalizeDays (List.foldl scheduleStep ⟨m, [], buf'⟩ ls) := by
  rcases foldl_buf ls m buf buf' with h | ⟨h1, h2, h3, h4⟩
  · rw [h]
  · unfold finalizeDays
    rw [h2, h4]
    simp [h1, h3]

theorem foldl_keep_label (L : Str) (v : DaySchedule) :
    ∀ (ls : List Str) (st : ParseState),
      (∀ l ∈ ls, isDayHeader (trimSpace l) = true →
        trimSuffixStr (trimSpace l) [':'] ≠ L) →
      st.currentDay ≠ L → st.days L = some v →
      (List.foldl scheduleStep st ls).currentDay ≠ L ∧
      (List.foldl scheduleStep st ls).days L = some v := by
  intro ls
  induction ls with
  | nil => intro st _ hcur hd; exact ⟨hcur, hd⟩
  | cons l ls ih =>
    intro st h hcur hd
    simp only [List.foldl_cons]
    by_cases hemp : trimSpace l = []
    · rw [scheduleStep_of_empty st l hemp]
      exact ih st (fun x hx => h x (by simp [hx])) hcur hd
    · by_cases hhd : isDayHeader (trimSpace l) = true
      · rw [scheduleStep_of_header st l hemp hhd]
        apply ih _ (fun x hx => h x (by simp [hx]))
        · exact h l (by simp) hhd
        · show (if st.currentDay ≠ [] then
                  mapInsert st.currentDay (parseDay st.dayLines) st.days
                else st.days) L = some v
          split
          · show mapInsert st.currentDay (parseDay st.dayLines) st.days L = some v
            unfold mapInsert
            rw [if_neg (fun hx => hcur hx.symm)]
            exact hd
          · exact hd
      · rw [Bool.not_eq_true] at hhd
        rw [scheduleStep_of_other st l hemp hhd]
        exact ih _ (fun x hx => h x (by simp [hx])) hcur hd

theorem finalize_keep {L : Str} {v : DaySchedule} (st : ParseState)
    (hcur : st.currentDay ≠ L) (hd : st.days L = some v) :
    finalizeDays st L = some v := by
  unfold finalizeDays
  split
  · show mapInsert st.currentDay (parseDay st.dayLines) st.days L = some v
    unfold mapInsert
    rw [if_neg (fun hx => hcur hx.symm)]
    exact hd
  · exact hd

theorem finalizeDays_self (m : Str → Option DaySchedule) (L : Str) (B : List Str)
    (hL : L ≠ []) :
    finalizeDays ⟨m, L, B⟩ L = some (parseDay B) := by
  unfold finalizeDays mapInsert
  simp [hL]

theorem parseSchedule_days (input : Str) :
    (parseSchedule input).Days =
      finalizeDays ((splitOnChar '\n' input).foldl scheduleStep
        ⟨emptyDays, [], []⟩) := rfl

/-- C1: for every input string the top-level parse terminates and returns a
`Schedule` value.  The embedding of `parseSchedule` — together with header
extraction, day segmentation, slot routing, subject-line splitting and
subject parsing, which it invokes — is a total function of its input, so no
error or exception is possible for any input. -/
theorem parseSchedule_total (input : Str) : ∃ s : Schedule, parseSchedule input = s :=
  ⟨parseSchedule input, rfl⟩

/-- C2: a slot raw text containing the no-class marker `Nghỉ` anywhere makes
`parseSubjects` return the empty sequence, regardless of any other content
in that text. -/
theorem parseSubjects_nghi (input : Str) (h : containsSubstr input nghiStr = true) :
    parseSubjects input = [] := by
  unfold parseSubjects
  rw [h]
  rfl

/-- Witness for C2 at a concrete slot text that contains the marker among
other content. -/
theorem parseSubjects_nghi_witness :
    containsSubstr " Nghỉ hôm nay".data nghiStr = true ∧
    parseSubjects " Nghỉ hôm nay".data = [] :=
  ⟨by decide, parseSubjects_nghi _ (by decide)⟩

/-- C3: the canonical slot text of the spec parses to exactly one `Subject`
with the expected seven fields. -/
theorem parseSubjects_example :
    parseSubjects "Toán - Nhóm: 1- Lớp: CNTT01- Tiết: 3-5- Phòng: A101- GV: Nguyen Van A- Đã học: 10/30".data
      = [{ Name := "Toán".data, Group := "1".data, Class := "CNTT01".data,
           Period := "3-5".data, Room := "A101".data,
           Teacher := "Nguyen Van A".data, Lessons := "10/30".data }] := by
  decide

/-- C8: on any slot text without the no-class marker, `parseSubjects` is the
in-order collection of exactly those split-off fragments that the subject
pattern accepts: a fragment that fails to match (for example one missing the
trailing lessons fraction) contributes no `Subject` and raises no error,
while every other fragment of the same slot that does match still yields its
`Subject`, in source order. -/
theorem parseSubjects_drop_nonmatching (input : Str)
    (h : containsSubstr input nghiStr = false) :
    parseSubjects input = (splitSubjects input).filterMap parseSubjectLine := by
  unfold parseSubjects
  rw [h]
  rw [if_neg (by simp)]
  rw [foldl_collect_filterMap]
  simp

/-- Witness for C8: a slot whose second fragment lacks the trailing lessons
fraction and is dropped, while the first fragment is still parsed. -/
theorem parseSubjects_drop_nonmatching_witness :
    parseSubjects "Toán - Nhóm: 1- Lớp: A1- Tiết: 1-2- Phòng: P1- GV: X- Đã học: 1/2 tiết Văn - Nhóm: 2- Lớp: A1- Tiết: 3-4- Phòng: P2".data
      = [{ Name := "Toán".data, Group := "1".data, Class := "A1".data,
           Period := "1-2".data, Room := "P1".data, Teacher := "X".data,
           Lessons := "1/2".data }] :=
  (parseSubjects_drop_nonmatching _ (by decide)).trans (by decide)

/-- C10: within one day block, a later line with the same slot-label prefix
overwrites an earlier one, rather than accumulating — for each of the three
slot labels: if line `l` carries the label and no later line of the block
does, the corresponding slot of the resulting `DaySchedule` holds exactly
the subjects parsed from `l`, whatever same-label lines precede it. -/
theorem parseDay_last_slot_wins (pre post : List Str) (l : Str) :
    (sangLabel.isPrefixOf (trimSpace l) = true →
      (∀ l' ∈ post, sangLabel.isPrefixOf (trimSpace l') = false) →
      (parseDay (pre ++ l :: post)).Sang
        = parseSubjects (trimPrefixStr (trimSpace l) sangLabel)) ∧
    (chieuLabel.isPrefixOf (trimSpace l) = true →
      (∀ l' ∈ post, chieuLabel.isPrefixOf (trimSpace l') = false) →
      (parseDay (pre ++ l :: post)).Chieu
        = parseSubjects (trimPrefixStr (trimSpace l) chieuLabel)) ∧
    (toiLabel.isPrefixOf (trimSpace l) = true →
      (∀ l' ∈ post, toiLabel.isPrefixOf (trimSpace l') = false) →
      (parseDay (pre ++ l :: post)).Toi
        = parseSubjects (trimPrefixStr (trimSpace l) toiLabel)) := by
  refine ⟨fun hl hpost => ?_, fun hl hpost => ?_, fun hl hpost => ?_⟩
  · unfold parseDay
    rw [List.foldl_append]
    simp only [List.foldl_cons]
    rw [foldl_dayStep_sang post _ hpost]
    simp only [dayStep]
    rw [if_pos hl]
  · unfold parseDay
    rw [List.foldl_append]
    simp only [List.foldl_cons]
    rw [foldl_dayStep_chieu post _ hpost]
    simp only [dayStep]
    rw [if_neg (by simp [chieu_not_sang hl])]
    rw [if_pos hl]
  · unfold parseDay
    rw [List.foldl_append]
    simp only [List.foldl_cons]
    rw [foldl_dayStep_toi post _ hpost]
    simp only [dayStep]
    rw [if_neg (by simp [toi_not_sang hl])]
    rw [if_neg (by simp [toi_not_chieu hl])]
    rw [if_pos hl]

/-- Witness for C10: for each slot label, two same-label lines in one day
block; the slot is the parse of the later one. -/
theorem parseDay_last_slot_wins_witness :
    ((parseDay ["Sáng: abc".data, "Sáng: Nghỉ".data, "Chiều: xyz".data]).Sang
      = parseSubjects (trimPrefixStr (trimSpace "Sáng: Nghỉ".data) sangLabel)) ∧
    ((parseDay ["Chiều: abc".data, "Chiều: Nghỉ".data, "Tối: xyz".data]).Chieu
      = parseSubjects (trimPrefixStr (trimSpace "Chiều: Nghỉ".data) chieuLabel)) ∧
    ((parseDay ["Tối: abc".data, "Sáng: u".data, "Tối: Nghỉ".data]).Toi
      = parseSubjects (trimPrefixStr (trimSpace "Tối: Nghỉ".data) toiLabel)) :=
  ⟨(parseDay_last_slot_wins ["Sáng: abc".data] ["Chiều: xyz".data]
      "Sáng: Nghỉ".data).1 (by decide) (by decide),
   (parseDay_last_slot_wins ["Chiều: abc".data] ["Tối: xyz".data]
      "Chiều: Nghỉ".data).2.1 (by decide) (by decide),
   (parseDay_last_slot_wins ["Tối: abc".data, "Sáng: u".data] []
      "Tối: Nghỉ".data).2.2 (by decide) (by decide)⟩

/-- Counterexample to C6 as stated: an input that does not contain the
delimiter but has an embedded newline yields two fragments, not one
fragment covering the whole input. -/
theorem splitSubjects_single_counterexample :
    containsSubstr "a\nb".data delimStr = false ∧
    splitSubjects "a\nb".data ≠ ["a\nb".data] ∧
    (splitSubjects "a\nb".data).length ≠ 1 :=
  ⟨by decide, by decide, by decide⟩

/-- C6 (amended): for an input without the delimiter token that contains no
newline and does not trim to nothing, the splitter returns exactly one
fragment, the input's trim; and for every input, every fragment in the
output is non-empty. -/
theorem splitSubjects_no_delim (input : Str) :
    (containsSubstr input delimStr = false → ('\n') ∉ input →
      trimSpace input ≠ [] → splitSubjects input = [trimSpace input]) ∧
    (∀ f ∈ splitSubjects input, f ≠ []) := by
  constructor
  · intro hnd hnl hne
    rw [splitSubjects_eq]
    rw [replaceAll_of_not_contains _ _ _ hnd]
    rw [splitOnChar_not_mem '\n' input hnl]
    rw [processedLines_cons]
    have hx : (trimSpace input).isEmpty = false := by
      cases hy : trimSpace input with
      | nil => exact absurd hy hne
      | cons a b => rfl
    simp [hx, processedLines_nil]
  · intro f hf
    rw [splitSubjects_eq] at hf
    unfold processedLines at hf
    have hmem := List.of_mem_filter hf
    intro hx
    rw [hx] at hmem
    simp at hmem

/-- Witness for the amended C6 at a concrete delimiter-free input. -/
theorem splitSubjects_no_delim_witness :
    splitSubjects "abc".data = [trimSpace "abc".data] :=
  (splitSubjects_no_delim "abc".data).1 (by decide) (by decide) (by decide)

/-- Counterexample to C5 as stated: two entries each containing the
delimiter ` tiết ` exactly once whose concatenation splits into three
fragments, not two — the content after an entry's delimiter occurrence
becomes a fragment of its own. -/
theorem splitSubjects_pair_counterexample :
    countOcc "a tiết b".data delimStr = 1 ∧
    countOcc "c tiết d".data delimStr = 1 ∧
    (splitSubjects ("a tiết b".data ++ "c tiết d".data)).length = 3 :=
  ⟨by decide, by decide, by decide⟩

/-- C5 (amended): for two entries that each consist of some content followed
by the delimiter ` tiết ` — with no delimiter occurrence starting earlier in
the entry and no newline in the content, which is how the source provides
them — the splitter applied to their concatenation yields exactly two
fragments, in the entries' original order. -/
theorem splitSubjects_two_entries (a b : Str)
    (ha : noEarlyOcc a delimStr) (hb : noEarlyOcc b delimStr)
    (han : ('\n') ∉ a) (hbn : ('\n') ∉ b) :
    splitSubjects ((a ++ delimStr) ++ (b ++ delimStr))
      = [trimSpace (a ++ delimCoreStr), trimSpace (b ++ delimCoreStr)] := by
  rw [splitSubjects_eq]
  have hsplit1 : (a ++ delimStr) ++ (b ++ delimStr) = a ++ delimStr ++ (b ++ delimStr) := by
    simp [List.append_assoc]
  rw [hsplit1]
  rw [replaceAll_split delimStr delimNlStr a (b ++ delimStr) (by decide) ha]
  have h2 : replaceAll (b ++ delimStr) delimStr delimNlStr = b ++ delimNlStr ++ [] := by
    have hb' : b ++ delimStr = b ++ delimStr ++ [] := by simp
    rw [hb', replaceAll_split delimStr delimNlStr b [] (by decide) hb]
    rfl
  rw [h2]
  have harr : a ++ delimNlStr ++ (b ++ delimNlStr ++ [])
      = (a ++ delimCoreStr) ++ '\n' :: ((b ++ delimCoreStr) ++ '\n' :: []) := by
    have hdnl : delimNlStr = delimCoreStr ++ ['\n'] := rfl
    rw [hdnl]
    simp [List.append_assoc]
  rw [harr]
  rw [splitOnChar_append, splitOnChar_append]
  have hanc : ('\n') ∉ a ++ delimCoreStr := by
    intro hx
    rcases List.mem_append.mp hx with hx | hx
    · exact han hx
    · revert hx; decide
  have hbnc : ('\n') ∉ b ++ delimCoreStr := by
    intro hx
    rcases List.mem_append.mp hx with hx | hx
    · exact hbn hx
    · revert hx; decide
  rw [splitOnChar_not_mem '\n' _ hanc, splitOnChar_not_mem '\n' _ hbnc]
  have htne : ∀ (x : Str), (trimSpace (x ++ delimCoreStr)).isEmpty = false := by
    intro x
    have hcore : x ++ delimCoreStr = (x ++ " tiế".data) ++ ['t'] := by
      rw [List.append_assoc]; rfl
    have hne := trimSpace_append_ne_nil (x ++ " tiế".data) 't' (by decide)
    rw [hcore]
    cases hy : trimSpace ((x ++ " tiế".data) ++ ['t']) with
    | nil => exact absurd hy hne
    | cons c cs => rfl
  show processedLines ((a ++ delimCoreStr) :: (b ++ delimCoreStr) :: [[]] ) = _
  rw [processedLines_cons, processedLines_cons, processedLines_cons]
  simp [htne a, htne b, processedLines_nil, trimSpace_nil]

/-- Witness for the amended C5 at two concrete entries. -/
theorem splitSubjects_two_entries_witness :
    splitSubjects (("Toán 1/2".data ++ delimStr) ++ ("Văn 3/4".data ++ delimStr))
      = [trimSpace ("Toán 1/2".data ++ delimCoreStr),
         trimSpace ("Văn 3/4".data ++ delimCoreStr)] :=
  splitSubjects_two_entries "Toán 1/2".data "Văn 3/4".data
    (by decide) (by decide) (by decide) (by decide)

theorem finalize_after_block (pls : List Str) (L : Str) (v : DaySchedule)
    (m : Str → Option DaySchedule) (L2 : Str)
    (hL2 : L2 ≠ L)
    (hpls : ∀ l ∈ pls, isDayHeader (trimSpace l) = true →
      trimSuffixStr (trimSpace l) [':'] ≠ L) :
    finalizeDays (List.foldl scheduleStep ⟨mapInsert L v m, L2, []⟩ pls) L = some v := by
  have hstart : (⟨mapInsert L v m, L2, []⟩ : ParseState).days L = some v := by
    simp [mapInsert]
  have hkeep := foldl_keep_label L v pls ⟨mapInsert L v m, L2, []⟩ hpls hL2 hstart
  exact finalize_keep _ hkeep.1 hkeep.2

/-- C9: non-empty lines occurring before the first day-header line have no
effect on the resulting day mapping: the `Days` component of the parse of a
document with a day-header-free preamble equals the `Days` component of the
parse of the document with that preamble removed. -/
theorem parseSchedule_preamble_irrelevant (pre rest : Str)
    (hpre : ∀ l ∈ splitOnChar '\n' pre, isDayHeader (trimSpace l) = false) :
    (parseSchedule (pre ++ '\n' :: rest)).Days = (parseSchedule rest).Days := by
  rw [parseSchedule_days, parseSchedule_days]
  rw [splitOnChar_append]
  rw [List.foldl_append]
  rw [foldl_scheduleStep_nonheader _ _ hpre]
  exact finalize_buf (splitOnChar '\n' rest) emptyDays _ []

/-- Witness for C9: a preamble with header-like text does not change the day
map of the document that follows it. -/
theorem parseSchedule_preamble_irrelevant_witness :
    (parseSchedule ("Tuần 1 lớp: A1".data ++ '\n' :: "Thứ 2:\nSáng: Nghỉ".data)).Days
      = (parseSchedule "Thứ 2:\nSáng: Nghỉ".data).Days :=
  parseSchedule_preamble_irrelevant "Tuần 1 lớp: A1".data "Thứ 2:\nSáng: Nghỉ".data
    (by decide)

/-- C4: repeated day labels resolve last-write-wins.  For a document of the
form `pre`, newline, a day block with header line `h` and body `blockLines`,
followed by the rest of the document `postLines` (which is empty or starts
at a day header, and contains no further block with `h`'s label), the final
map records `h`'s label with the parsed content of exactly this block —
whatever `pre` contains, including earlier blocks with the same label. -/
theorem parseSchedule_last_label_wins
    (pre h : Str) (blockLines postLines : List Str)
    (hh : isDayHeader (trimSpace h) = true)
    (hhn : ('\n') ∉ h)
    (hblock : ∀ l ∈ blockLines, isDayHeader (trimSpace l) = false)
    (hblockn : ∀ l ∈ blockLines, ('\n') ∉ l)
    (hpostn : ∀ l ∈ postLines, ('\n') ∉ l)
    (hpostL : ∀ l ∈ postLines, isDayHeader (trimSpace l) = true →
      trimSuffixStr (trimSpace l) [':'] ≠ trimSuffixStr (trimSpace h) [':'])
    (hpostHead : postLines = [] ∨ isDayHeader (trimSpace (postLines.headD [])) = true) :
    (parseSchedule (pre ++ '\n' :: joinNl (h :: (blockLines ++ postLines)))).Days
        (trimSuffixStr (trimSpace h) [':'])
      = some (parseDay (processedLines blockLines)) := by
  have hnl : ∀ x ∈ h :: (blockLines ++ postLines), ('\n') ∉ x := by
    intro x hx
    simp only [List.mem_cons, List.mem_append] at hx
    rcases hx with rfl | hx | hx
    · exact hhn
    · exact hblockn x hx
    · exact hpostn x hx
  have hLne : trimSuffixStr (trimSpace h) [':'] ≠ [] := dayLabel_ne_nil hh
  rw [parseSchedule_days, splitOnChar_append, splitOnChar_joinNl h _ hnl, List.foldl_append]
  generalize List.foldl scheduleStep ⟨emptyDays, [], []⟩ (splitOnChar '\n' pre) = stA
  obtain ⟨dA, cA, lA⟩ := stA
  rw [List.foldl_cons]
  rw [scheduleStep_of_header _ h (header_trim_ne_nil hh) hh]
  dsimp only
  rw [List.foldl_append, foldl_scheduleStep_nonheader blockLines _ hblock]
  dsimp only
  rw [List.nil_append]
  rcases hpostHead with hpe | hph
  · subst hpe
    rw [List.foldl_nil]
    exact finalizeDays_self _ _ _ hLne
  · cases postLines with
    | nil => exact absurd hph (by decide)
    | cons pl pls =>
      have hph' : isDayHeader (trimSpace pl) = true := hph
      rw [List.foldl_cons]
      rw [scheduleStep_of_header _ pl (header_trim_ne_nil hph') hph']
      dsimp only
      rw [if_pos hLne]
      exact finalize_after_block pls _ _ _ _ (hpostL pl (by simp) hph')
        (fun x hx hhd => hpostL x (by simp [hx]) hhd)

/-- Witness for C4: the label `Thứ 2` appears twice; the map holds the parse
of the second block. -/
theorem parseSchedule_last_label_wins_witness :
    (parseSchedule ("Thứ 2:\nSáng: Nghỉ".data ++ '\n'
        :: joinNl ("Thứ 2:".data :: (["Chiều: Nghỉ".data] ++ ["Thứ 3:".data])))).Days
        (trimSuffixStr (trimSpace "Thứ 2:".data) [':'])
      = some (parseDay (processedLines ["Chiều: Nghỉ".data])) :=
  parseSchedule_last_label_wins "Thứ 2:\nSáng: Nghỉ".data "Thứ 2:".data
    ["Chiều: Nghỉ".data] ["Thứ 3:".data]
    (by decide) (by decide) (by decide) (by decide) (by decide) (by decide)
    (Or.inr (by decide))
